import Mathlib

/-!
Verification development for the metering accumulator core (`meter.cpp` /
`meter.h` of the aos-metering-app repository).

C++ `double` values are embedded as the type `D`: either NaN, +infinity,
-infinity, or a finite rational.  The comparison, addition, multiplication,
division and floor operations mirror IEEE-754 semantics on these values
(finite arithmetic is exact, which is the usual shallow-embedding choice for
specifications about value-level behaviour rather than bit-level precision).
-/

/-- Embedded C++ double: NaN, +infinity, -infinity, or a finite rational. -/
inductive D where
  | nan : D
  | inf : D
  | ninf : D
  | fin : ℚ → D
deriving DecidableEq, Repr

/-- IEEE `<` on embedded doubles: any comparison with NaN is false. -/
def dlt : D → D → Bool
  | D.nan, _ => false
  | _, D.nan => false
  | D.inf, _ => false
  | _, D.inf => true
  | D.ninf, D.ninf => false
  | D.ninf, _ => true
  | _, D.ninf => false
  | D.fin a, D.fin b => decide (a < b)

/-- IEEE `>` on embedded doubles (`x > y` is `y < x`). -/
def dgt (x y : D) : Bool := dlt y x

/-- `std::isnan`. -/
def disnan : D → Bool
  | D.nan => true
  | _ => false

/-- Rational addition in a kernel-evaluable form (the `+` of `ℚ` is marked
irreducible, which would block `decide`); proven equal to `+` below. -/
def qadd (a b : ℚ) : ℚ := mkRat (a.num * b.den + b.num * a.den) (a.den * b.den)

/-- Rational multiplication in a kernel-evaluable form; equal to `*`. -/
def qmul (a b : ℚ) : ℚ := mkRat (a.num * b.num) (a.den * b.den)

/-- Rational division in a kernel-evaluable form; equal to `/` for a nonzero
divisor. -/
def qdiv (a b : ℚ) : ℚ := Rat.divInt (a.num * b.den) (a.den * b.num)

/-- `pow(10, p)` in a kernel-evaluable form; equal to `(10 : ℚ) ^ p`. -/
def pow10 (p : Nat) : ℚ := mkRat ((10 : ℤ) ^ p) 1

/-- IEEE addition on embedded doubles. -/
def dadd : D → D → D
  | D.nan, _ => D.nan
  | _, D.nan => D.nan
  | D.inf, D.ninf => D.nan
  | D.ninf, D.inf => D.nan
  | D.inf, _ => D.inf
  | _, D.inf => D.inf
  | D.ninf, _ => D.ninf
  | _, D.ninf => D.ninf
  | D.fin a, D.fin b => D.fin (qadd a b)

/-- IEEE multiplication on embedded doubles. -/
def dmul : D → D → D
  | D.nan, _ => D.nan
  | _, D.nan => D.nan
  | D.inf, D.inf => D.inf
  | D.inf, D.ninf => D.ninf
  | D.ninf, D.inf => D.ninf
  | D.ninf, D.ninf => D.inf
  | D.inf, D.fin b => if b = 0 then D.nan else if b < 0 then D.ninf else D.inf
  | D.fin a, D.inf => if a = 0 then D.nan else if a < 0 then D.ninf else D.inf
  | D.ninf, D.fin b => if b = 0 then D.nan else if b < 0 then D.inf else D.ninf
  | D.fin a, D.ninf => if a = 0 then D.nan else if a < 0 then D.inf else D.ninf
  | D.fin a, D.fin b => D.fin (qmul a b)

/-- IEEE division on embedded doubles. -/
def ddiv : D → D → D
  | D.nan, _ => D.nan
  | _, D.nan => D.nan
  | D.inf, D.inf => D.nan
  | D.inf, D.ninf => D.nan
  | D.ninf, D.inf => D.nan
  | D.ninf, D.ninf => D.nan
  | D.inf, D.fin b => if b < 0 then D.ninf else D.inf
  | D.ninf, D.fin b => if b < 0 then D.inf else D.ninf
  | D.fin _, D.inf => D.fin 0
  | D.fin _, D.ninf => D.fin 0
  | D.fin a, D.fin b =>
      if b = 0 then (if a = 0 then D.nan else if a < 0 then D.ninf else D.inf)
      else D.fin (qdiv a b)

/-- IEEE `floor` on embedded doubles (`Rat.floor` is the kernel-evaluable
floor of `ℚ`; it agrees with `Int.floor`). -/
def dfloor : D → D
  | D.nan => D.nan
  | D.inf => D.inf
  | D.ninf => D.ninf
  | D.fin a => D.fin (Rat.floor a)

/-- `round(n, decimalPlaces)` from meter.cpp:
`floor(pow(10, decimalPlaces) * n) / pow(10, decimalPlaces)`. -/
def dround (n : D) (decimalPlaces : Nat) : D :=
  ddiv (dfloor (dmul (D.fin (pow10 decimalPlaces)) n)) (D.fin (pow10 decimalPlaces))

/-- `HISTOGRAM_BINS` from meter.h. -/
def HISTOGRAM_BINS : Nat := 12

/-- `binBoundaryV` from meter.h, 230 V profile (`EXPECTED_VOLTAGE == 230`).
The last entry `HUGE_VAL` is +infinity. -/
def binBoundaryV : List D :=
  [D.fin 205, D.fin 210, D.fin 215, D.fin 220, D.fin 225, D.fin 230,
   D.fin 235, D.fin 240, D.fin 245, D.fin 250, D.fin 255, D.inf]

/-- `binBoundaryI` from meter.h (0.05, 0.1, 0.2, 0.5, 1, 2, 5, 10, 20, 50,
100, `HUGE_VAL`; fractional values written with `mkRat` so they evaluate in
the kernel). -/
def binBoundaryI : List D :=
  [D.fin (mkRat 5 100), D.fin (mkRat 1 10), D.fin (mkRat 2 10), D.fin (mkRat 5 10),
   D.fin 1, D.fin 2, D.fin 5, D.fin 10, D.fin 20, D.fin 50, D.fin 100, D.inf]

/-- `binBoundaryP` from meter.h. -/
def binBoundaryP : List D :=
  [D.fin (-10000), D.fin (-3000), D.fin (-1000), D.fin (-300), D.fin (-100), D.fin 0,
   D.fin 100, D.fin 300, D.fin 1000, D.fin 3000, D.fin 10000, D.inf]

/-- `binBoundaryQ` from meter.h. -/
def binBoundaryQ : List D :=
  [D.fin (-10000), D.fin (-3000), D.fin (-1000), D.fin (-300), D.fin (-100), D.fin 0,
   D.fin 100, D.fin 300, D.fin 1000, D.fin 3000, D.fin 10000, D.inf]

/-- `binBoundaryPF` from meter.h (-1, -0.8, ..., 0.8, 1, `HUGE_VAL`). -/
def binBoundaryPF : List D :=
  [D.fin (-1), D.fin (mkRat (-8) 10), D.fin (mkRat (-6) 10), D.fin (mkRat (-4) 10),
   D.fin (mkRat (-2) 10), D.fin 0, D.fin (mkRat 2 10), D.fin (mkRat 4 10),
   D.fin (mkRat 6 10), D.fin (mkRat 8 10), D.fin 1, D.inf]

/-- `binBoundaryF` from meter.h, 50 Hz profile (`EXPECTED_FREQUENCY == 50`:
49.75, 49.80, ..., 50.25, `HUGE_VAL`). -/
def binBoundaryF : List D :=
  [D.fin (mkRat 4975 100), D.fin (mkRat 4980 100), D.fin (mkRat 4985 100),
   D.fin (mkRat 4990 100), D.fin (mkRat 4995 100), D.fin 50,
   D.fin (mkRat 5005 100), D.fin (mkRat 5010 100), D.fin (mkRat 5015 100),
   D.fin (mkRat 5020 100), D.fin (mkRat 5025 100), D.inf]

/-- The bucket-scan loop of `Report::Accumulator::accumulate`: index of the
first boundary `b` with `val < b`, or the length of the table when none
matches. -/
def findBin (val : D) : List D → Nat
  | [] => 0
  | b :: bs => if dlt val b then 0 else findBin val bs + 1

/-- Increment the counter at index `i` (`histogram.bin[bin]++`). -/
def incNth : List Nat → Nat → List Nat
  | [], _ => []
  | x :: xs, 0 => (x + 1) :: xs
  | x :: xs, Nat.succ n => x :: incNth xs n

/-- `Meter::Histogram`: twelve unsigned counters. -/
structure Histogram where
  bin : List Nat
deriving DecidableEq, Repr

/-- `Histogram::reset()` / the `Histogram` constructor: all counters zero. -/
def Histogram.fresh : Histogram := ⟨List.replicate HISTOGRAM_BINS 0⟩

/-- `Meter::Summary`: average, minimum, maximum and a histogram copy. -/
structure Summary where
  histogram : Histogram
  avg : D
  min : D
  max : D
deriving DecidableEq, Repr

/-- The `Summary` constructor / `Summary::reset()`: zero histogram, `avg = 0`,
`min = max = NAN`. -/
def Summary.fresh : Summary := ⟨Histogram.fresh, D.fin 0, D.nan, D.nan⟩

/-- `Report::Accumulator`: running total, min, max and a histogram.  The
boundary table and rounding precision are fixed by each derived accumulator
class, so they are passed explicitly to `accumulate` / `summarise`. -/
structure Accumulator where
  histogram : Histogram
  total : D
  min : D
  max : D
deriving DecidableEq, Repr

/-- The `Accumulator` constructor / `Accumulator::reset()`: zero histogram,
`total = 0`, `min = max = NAN`. -/
def Accumulator.fresh : Accumulator := ⟨Histogram.fresh, D.fin 0, D.nan, D.nan⟩

/-- `Accumulator::reset()` (overwrites the whole state). -/
def Accumulator.reset (_a : Accumulator) : Accumulator := Accumulator.fresh

/-- `Report::Accumulator::accumulate(val)`: scan the boundary table for the
first bucket with `val < boundary[bin]`; on a hit increment that bucket, add
`val` to the total and update min/max with NaN-aware comparisons, returning
true; otherwise leave the state unchanged and return false. -/
def Accumulator.accumulate (bs : List D) (a : Accumulator) (val : D) : Accumulator × Bool :=
  let bin := findBin val bs
  if bin < HISTOGRAM_BINS then
    ({ histogram := ⟨incNth a.histogram.bin bin⟩,
       total := dadd a.total val,
       min := if dlt val a.min || disnan a.min then val else a.min,
       max := if dgt val a.max || disnan a.max then val else a.max }, true)
  else
    (a, false)

/-- `Report::Accumulator::summarise(summary, count)`: when `count == 0` the
short-circuiting `||` returns false before the `memcpy`, leaving `summary`
untouched; otherwise the histogram is copied and `avg`/`min`/`max` are set
to the rounded statistics. -/
def Accumulator.summarise (a : Accumulator) (decimalPlaces : Nat) (summary : Summary)
    (count : Nat) : Summary × Bool :=
  if count = 0 then
    (summary, false)
  else
    ({ histogram := a.histogram,
       avg := dround (ddiv a.total (D.fin count)) decimalPlaces,
       min := dround a.min decimalPlaces,
       max := dround a.max decimalPlaces }, true)

/-- `Meter::Phase`: point-in-time values of one electrical phase. -/
structure Phase where
  vrms : D
  irms : D
  powerActive : D
  powerReactive : D
  powerFactor : D
deriving DecidableEq, Repr

/-- `Meter::Sample`: three phases plus the frequency. -/
structure Sample where
  p1 : Phase
  p2 : Phase
  p3 : Phase
  frequency : D
deriving DecidableEq, Repr

/-- `Meter::PhaseSummary`: one `Summary` per phase quantity. -/
structure PhaseSummary where
  vrms : Summary
  irms : Summary
  powerActive : Summary
  powerReactive : Summary
  powerFactor : Summary
deriving DecidableEq, Repr

/-- `PhaseSummary::reset()`. -/
def PhaseSummary.fresh : PhaseSummary :=
  ⟨Summary.fresh, Summary.fresh, Summary.fresh, Summary.fresh, Summary.fresh⟩

/-- `Meter::SampleSummary`: three phase summaries, the frequency summary, the
sample count and the interval timestamps (times are embedded as naturals). -/
structure SampleSummary where
  p1 : PhaseSummary
  p2 : PhaseSummary
  p3 : PhaseSummary
  frequency : Summary
  count : Nat
  tsStart : Nat
  tsEnd : Nat
deriving DecidableEq, Repr

/-- A `SampleSummary` as constructed before being filled in. -/
def SampleSummary.fresh : SampleSummary :=
  ⟨PhaseSummary.fresh, PhaseSummary.fresh, PhaseSummary.fresh, Summary.fresh, 0, 0, 0⟩

/-- `Report::PhaseAccumulator`: five per-quantity accumulators.  The derived
accumulator classes fix the boundary table and precision of each quantity
(voltage: `binBoundaryV`, 1 decimal; current: `binBoundaryI`, 2; active
power: `binBoundaryP`, 1; reactive power: `binBoundaryQ`, 1; power factor:
`binBoundaryPF`, 2). -/
structure PhaseAccumulator where
  vrms : Accumulator
  irms : Accumulator
  powerActive : Accumulator
  powerReactive : Accumulator
  powerFactor : Accumulator
deriving DecidableEq, Repr

/-- `PhaseAccumulator::reset()` / fresh construction. -/
def PhaseAccumulator.fresh : PhaseAccumulator :=
  ⟨Accumulator.fresh, Accumulator.fresh, Accumulator.fresh, Accumulator.fresh, Accumulator.fresh⟩

/-- `Report::PhaseAccumulator::accumulate(phase)`: accumulate all five
quantities unconditionally, then return the conjunction of the five success
flags. -/
def PhaseAccumulator.accumulate (pa : PhaseAccumulator) (phase : Phase) :
    PhaseAccumulator × Bool :=
  let rV := pa.vrms.accumulate binBoundaryV phase.vrms
  let rI := pa.irms.accumulate binBoundaryI phase.irms
  let rP := pa.powerActive.accumulate binBoundaryP phase.powerActive
  let rQ := pa.powerReactive.accumulate binBoundaryQ phase.powerReactive
  let rF := pa.powerFactor.accumulate binBoundaryPF phase.powerFactor
  (⟨rV.1, rI.1, rP.1, rQ.1, rF.1⟩, rV.2 && rI.2 && rP.2 && rQ.2 && rF.2)

/-- `Report::PhaseAccumulator::summarise(phaseSummary, count)`: summarise all
five quantities (voltage/active/reactive power to 1 decimal place, current
and power factor to 2), returning the conjunction of the success flags. -/
def PhaseAccumulator.summarise (pa : PhaseAccumulator) (ps : PhaseSummary)
    (count : Nat) : PhaseSummary × Bool :=
  let rV := pa.vrms.summarise 1 ps.vrms count
  let rI := pa.irms.summarise 2 ps.irms count
  let rP := pa.powerActive.summarise 1 ps.powerActive count
  let rQ := pa.powerReactive.summarise 1 ps.powerReactive count
  let rF := pa.powerFactor.summarise 2 ps.powerFactor count
  (⟨rV.1, rI.1, rP.1, rQ.1, rF.1⟩, rV.2 && rI.2 && rP.2 && rQ.2 && rF.2)

/-- `Report::SampleAccumulator`: three phase accumulators, the frequency
accumulator (`binBoundaryF`, 1 decimal place), the sample count, the interval
bounds and the timestamps (times embedded as naturals). -/
structure SampleAccumulator where
  p1 : PhaseAccumulator
  p2 : PhaseAccumulator
  p3 : PhaseAccumulator
  frequency : Accumulator
  count : Nat
  intervalMin : Nat
  intervalMax : Nat
  tsLast : Nat
  tsStart : Nat
  tsEnd : Nat
deriving DecidableEq, Repr

/-- `SampleAccumulator::reset()`: reset every child, zero the count, re-arm
the interval bounds (`INT32_MAX` and 0 milliseconds) and set all three
timestamps to the current time. -/
def SampleAccumulator.reset (_sa : SampleAccumulator) (now : Nat) : SampleAccumulator :=
  ⟨PhaseAccumulator.fresh, PhaseAccumulator.fresh, PhaseAccumulator.fresh,
   Accumulator.fresh, 0, 2147483647, 0, now, now, now⟩

/-- The state `Report()` starts in (the constructor calls `reset()`). -/
def SampleAccumulator.fresh (now : Nat) : SampleAccumulator :=
  ⟨PhaseAccumulator.fresh, PhaseAccumulator.fresh, PhaseAccumulator.fresh,
   Accumulator.fresh, 0, 2147483647, 0, now, now, now⟩

/-- `Report::SampleAccumulator::accumulate(sample)`: accumulate the three
phases and the frequency unconditionally; increment `count` and refresh
`tsEnd` to the current time only when all four sub-accumulations succeeded. -/
def SampleAccumulator.accumulate (sa : SampleAccumulator) (sample : Sample)
    (now : Nat) : SampleAccumulator × Bool :=
  let r1 := sa.p1.accumulate sample.p1
  let r2 := sa.p2.accumulate sample.p2
  let r3 := sa.p3.accumulate sample.p3
  let rF := sa.frequency.accumulate binBoundaryF sample.frequency
  if r1.2 && r2.2 && r3.2 && rF.2 then
    ({ sa with p1 := r1.1, p2 := r2.1, p3 := r3.1, frequency := rF.1,
               count := sa.count + 1, tsEnd := now }, true)
  else
    ({ sa with p1 := r1.1, p2 := r2.1, p3 := r3.1, frequency := rF.1 }, false)

/-- `Report::SampleAccumulator::summarise(sampleSummary)`: summarise every
child with the current count, copy `count`/`tsStart`/`tsEnd`, and return the
conjunction of the child success flags. -/
def SampleAccumulator.summarise (sa : SampleAccumulator) (ss : SampleSummary) :
    SampleSummary × Bool :=
  let r1 := sa.p1.summarise ss.p1 sa.count
  let r2 := sa.p2.summarise ss.p2 sa.count
  let r3 := sa.p3.summarise ss.p3 sa.count
  let rF := sa.frequency.summarise 1 ss.frequency sa.count
  ({ ss with p1 := r1.1, p2 := r2.1, p3 := r3.1, frequency := rF.1,
             count := sa.count, tsStart := sa.tsStart, tsEnd := sa.tsEnd },
   r1.2 && r2.2 && r3.2 && rF.2)

/-- `Meter::Report`: the public wrapper around a `SampleAccumulator`. -/
structure Report where
  acc : SampleAccumulator
deriving DecidableEq, Repr

/-- `Report::accumulate(sample)`. -/
def Report.accumulate (r : Report) (sample : Sample) (now : Nat) : Report × Bool :=
  let t := r.acc.accumulate sample now
  (⟨t.1⟩, t.2)

/-- `Report::summarise(sampleSummary)`. -/
def Report.summarise (r : Report) (ss : SampleSummary) : SampleSummary × Bool :=
  r.acc.summarise ss

/-- `Report::count()`. -/
def Report.count (r : Report) : Nat := r.acc.count

/-- `Report::reset()`. -/
def Report.reset (r : Report) (now : Nat) : Report := ⟨r.acc.reset now⟩

/-- Run a sequence of `accumulate` calls against one quantity accumulator. -/
def runList (bs : List D) (a : Accumulator) : List D → Accumulator
  | [] => a
  | v :: vs => runList bs (Accumulator.accumulate bs a v).1 vs

/-- The values of a sequence accepted by bucket selection (a call's success
depends only on the value and the boundary table, not on accumulator state). -/
def acceptedVals (bs : List D) (vs : List D) : List D :=
  vs.filter (fun v => findBin v bs < HISTOGRAM_BINS)

/-- `m` is a true minimum of the list `l`: it occurs in `l` and no element of
`l` is strictly below it. -/
def isMinOf (m : D) (l : List D) : Prop := m ∈ l ∧ ∀ v ∈ l, dlt v m = false

/-- `m` is a true maximum of the list `l`: it occurs in `l` and no element of
`l` is strictly above it. -/
def isMaxOf (m : D) (l : List D) : Prop := m ∈ l ∧ ∀ v ∈ l, dlt m v = false

/-- The six boundary tables compiled into the program (230 V, 50 Hz profile). -/
def isQuantityTable (bs : List D) : Prop :=
  bs = binBoundaryV ∨ bs = binBoundaryI ∨ bs = binBoundaryP ∨ bs = binBoundaryQ ∨
  bs = binBoundaryPF ∨ bs = binBoundaryF

/-- A phase reading whose power factor is NaN and whose other four quantities
are in range (230 V, 1 A, 100 W active, 50 var reactive). -/
def phaseWithNanPF : Phase := ⟨D.fin 230, D.fin 1, D.fin 100, D.fin 50, D.nan⟩

/-- A fully in-range sample whose phase-1 voltage is `v` (1 A, 0 W, 0 var,
power factor 0 on every phase, 50 Hz). -/
def demoSample (v : ℚ) : Sample :=
  ⟨⟨D.fin v, D.fin 1, D.fin 0, D.fin 0, D.fin 0⟩,
   ⟨D.fin 230, D.fin 1, D.fin 0, D.fin 0, D.fin 0⟩,
   ⟨D.fin 230, D.fin 1, D.fin 0, D.fin 0, D.fin 0⟩,
   D.fin 50⟩

theorem qadd_eq (a b : ℚ) : qadd a b = a + b := (Rat.add_def' a b).symm

theorem qmul_eq (a b : ℚ) : qmul a b = a * b := by
  rw [Rat.mul_def, Rat.normalize_eq_mkRat]; rfl

theorem qdiv_eq (a b : ℚ) (hb : b ≠ 0) : qdiv a b = a / b := by
  have hbn : b.num ≠ 0 := Rat.num_ne_zero.mpr hb
  have had : (a.den : ℤ) ≠ 0 := Int.natCast_ne_zero.mpr a.den_nz
  rw [Rat.div_def, Rat.inv_def]
  conv_rhs => rw [← Rat.divInt_self a]
  rw [Rat.divInt_mul_divInt _ _ had hbn, qdiv]

theorem pow10_eq (p : Nat) : pow10 p = (10 : ℚ) ^ p := by
  rw [pow10, Rat.mkRat_one]
  push_cast
  ring

theorem dadd_fin (a b : ℚ) : dadd (D.fin a) (D.fin b) = D.fin (a + b) := by
  rw [dadd, qadd_eq]

theorem dmul_fin (a b : ℚ) : dmul (D.fin a) (D.fin b) = D.fin (a * b) := by
  rw [dmul, qmul_eq]

theorem ddiv_fin (a b : ℚ) (hb : b ≠ 0) : ddiv (D.fin a) (D.fin b) = D.fin (a / b) := by
  rw [ddiv, if_neg hb, qdiv_eq a b hb]

theorem dfloor_fin (a : ℚ) : dfloor (D.fin a) = D.fin ((Int.floor a : ℤ) : ℚ) := by
  have h : Rat.floor a = Int.floor a := by rw [Rat.floor_def', Rat.floor_def]
  rw [dfloor, h]

theorem dlt_nan_left (b : D) : dlt D.nan b = false := by cases b <;> rfl

theorem dlt_nan_right (x : D) : dlt x D.nan = false := by cases x <;> rfl

theorem dlt_inf_left (b : D) : dlt D.inf b = false := by cases b <;> rfl

theorem dlt_irrefl (x : D) : dlt x x = false := by
  cases x <;> simp [dlt]

theorem dlt_trans {x y z : D} (h1 : dlt x y = true) (h2 : dlt y z = true) :
    dlt x z = true := by
  cases x <;> cases y <;> cases z <;> simp_all [dlt]
  linarith

theorem dlt_false_cases {x y : D} (hx : x ≠ D.nan) (hy : y ≠ D.nan)
    (h : dlt x y = false) : x = y ∨ dlt y x = true := by
  cases x with
  | nan => exact absurd rfl hx
  | inf =>
    cases y with
    | nan => exact absurd rfl hy
    | inf => exact Or.inl rfl
    | ninf => exact Or.inr rfl
    | fin b => exact Or.inr rfl
  | ninf =>
    cases y with
    | nan => exact absurd rfl hy
    | inf => simp [dlt] at h
    | ninf => exact Or.inl rfl
    | fin b => simp [dlt] at h
  | fin a =>
    cases y with
    | nan => exact absurd rfl hy
    | inf => simp [dlt] at h
    | ninf => exact Or.inr rfl
    | fin b =>
      simp [dlt] at h
      rcases eq_or_lt_of_le h with h2 | h2
      · exact Or.inl (congrArg D.fin h2.symm)
      · refine Or.inr ?_
        simp [dlt]
        exact h2

theorem disnan_eq_false {x : D} (h : x ≠ D.nan) : disnan x = false := by
  cases x <;> simp_all [disnan]

theorem findBin_le (v : D) (bs : List D) : findBin v bs ≤ bs.length := by
  induction bs with
  | nil => exact Nat.le_refl 0
  | cons b t ih =>
    simp only [findBin, List.length_cons]
    split
    · omega
    · omega

theorem findBin_eq_length_nan (bs : List D) : findBin D.nan bs = bs.length := by
  induction bs with
  | nil => rfl
  | cons b t ih => simp [findBin, dlt_nan_left, ih]

theorem findBin_eq_length_inf (bs : List D) : findBin D.inf bs = bs.length := by
  induction bs with
  | nil => rfl
  | cons b t ih => simp [findBin, dlt_inf_left, ih]

theorem findBin_lt_of_inf_mem {bs : List D} {v : D} (hinf : D.inf ∈ bs)
    (hnan : v ≠ D.nan) (hv : v ≠ D.inf) : findBin v bs < bs.length := by
  induction bs with
  | nil => cases hinf
  | cons b t ih =>
    simp only [findBin, List.length_cons]
    split
    · omega
    · rename_i h
      rcases List.mem_cons.mp hinf with hb | hmem
      · exfalso
        apply h
        subst hb
        cases v with
        | nan => exact absurd rfl hnan
        | inf => exact absurd rfl hv
        | ninf => rfl
        | fin a => rfl
      · have := ih hmem
        omega

theorem findBin_getD {v : D} {bs : List D} (h : findBin v bs < bs.length) :
    dlt v (bs.getD (findBin v bs) D.nan) = true := by
  induction bs with
  | nil => simp [findBin] at h
  | cons b t ih =>
    by_cases hd : dlt v b = true
    · simp [findBin, hd]
    · have h' : findBin v t < t.length := by
        simp [findBin, hd] at h
        omega
      have hstep : findBin v (b :: t) = findBin v t + 1 := by simp [findBin, hd]
      rw [hstep, List.getD_cons_succ]
      exact ih h'

theorem findBin_before {v : D} {bs : List D} {j : Nat} (h : j < findBin v bs) :
    dlt v (bs.getD j D.nan) = false := by
  induction bs generalizing j with
  | nil => simp [findBin] at h
  | cons b t ih =>
    by_cases hd : dlt v b = true
    · simp [findBin, hd] at h
    · cases j with
      | zero =>
        simp only [Bool.not_eq_true] at hd
        rw [List.getD_cons_zero]
        exact hd
      | succ n =>
        have hn : n < findBin v t := by
          simp [findBin, hd] at h
          omega
        simpa [List.getD_cons_succ] using ih hn

theorem incNth_length (l : List Nat) (i : Nat) : (incNth l i).length = l.length := by
  induction l generalizing i with
  | nil => rfl
  | cons x t ih =>
    cases i with
    | zero => rfl
    | succ n => simp [incNth, ih]

theorem incNth_sum {l : List Nat} {i : Nat} (h : i < l.length) :
    (incNth l i).sum = l.sum + 1 := by
  induction l generalizing i with
  | nil => simp at h
  | cons x t ih =>
    cases i with
    | zero =>
      simp [incNth, List.sum_cons]
      omega
    | succ n =>
      have hn : n < t.length := by simpa using Nat.lt_of_succ_lt_succ h
      simp [incNth, List.sum_cons, ih hn]
      omega

theorem accumulate_ok (bs : List D) (a : Accumulator) (v : D) :
    (Accumulator.accumulate bs a v).2 = true ↔ findBin v bs < HISTOGRAM_BINS := by
  by_cases h : findBin v bs < HISTOGRAM_BINS <;> simp [Accumulator.accumulate, h]

theorem accumulate_pos {bs : List D} {a : Accumulator} {v : D}
    (h : findBin v bs < HISTOGRAM_BINS) :
    Accumulator.accumulate bs a v =
      ({ histogram := ⟨incNth a.histogram.bin (findBin v bs)⟩,
         total := dadd a.total v,
         min := if dlt v a.min || disnan a.min then v else a.min,
         max := if dgt v a.max || disnan a.max then v else a.max }, true) := by
  simp [Accumulator.accumulate, h]

theorem accumulate_neg {bs : List D} {a : Accumulator} {v : D}
    (h : ¬ findBin v bs < HISTOGRAM_BINS) :
    Accumulator.accumulate bs a v = (a, false) := by
  simp [Accumulator.accumulate, h]

theorem acceptedVals_cons_pos {bs : List D} {v : D} (vs : List D)
    (h : findBin v bs < HISTOGRAM_BINS) :
    acceptedVals bs (v :: vs) = v :: acceptedVals bs vs := by
  simp [acceptedVals, List.filter_cons, h]

theorem acceptedVals_cons_neg {bs : List D} {v : D} (vs : List D)
    (h : ¬ findBin v bs < HISTOGRAM_BINS) :
    acceptedVals bs (v :: vs) = acceptedVals bs vs := by
  simp [acceptedVals, List.filter_cons, h]

theorem mem_acceptedVals {bs vs : List D} {v : D} (h : v ∈ acceptedVals bs vs) :
    findBin v bs < HISTOGRAM_BINS := by
  simp [acceptedVals, List.mem_filter] at h
  exact h.2

theorem accepted_ne_nan {bs vs : List D} {v : D} (hlen : bs.length = HISTOGRAM_BINS)
    (h : v ∈ acceptedVals bs vs) : v ≠ D.nan := by
  intro hv
  subst hv
  have := mem_acceptedVals h
  rw [findBin_eq_length_nan, hlen] at this
  omega

theorem accepted_ne_inf {bs vs : List D} {v : D} (hlen : bs.length = HISTOGRAM_BINS)
    (h : v ∈ acceptedVals bs vs) : v ≠ D.inf := by
  intro hv
  subst hv
  have := mem_acceptedVals h
  rw [findBin_eq_length_inf, hlen] at this
  omega

theorem acceptedVals_append (bs vs ws : List D) :
    acceptedVals bs (vs ++ ws) = acceptedVals bs vs ++ acceptedVals bs ws := by
  simp [acceptedVals, List.filter_append]

theorem runList_append (bs : List D) (a : Accumulator) (vs ws : List D) :
    runList bs a (vs ++ ws) = runList bs (runList bs a vs) ws := by
  induction vs generalizing a with
  | nil => rfl
  | cons v t ih => simp [runList, ih]

theorem runList_histogram (bs : List D) (vs : List D) : ∀ (a : Accumulator),
    a.histogram.bin.length = HISTOGRAM_BINS →
    (runList bs a vs).histogram.bin.length = HISTOGRAM_BINS ∧
    (runList bs a vs).histogram.bin.sum = a.histogram.bin.sum + (acceptedVals bs vs).length := by
  induction vs with
  | nil =>
    intro a ha
    simp [runList, acceptedVals, ha]
  | cons v t ih =>
    intro a ha
    by_cases h : findBin v bs < HISTOGRAM_BINS
    · rw [runList, accumulate_pos h, acceptedVals_cons_pos t h]
      have hbin : findBin v bs < a.histogram.bin.length := by rw [ha]; exact h
      have hlen2 : (incNth a.histogram.bin (findBin v bs)).length = HISTOGRAM_BINS := by
        rw [incNth_length, ha]
      have hih := ih ⟨⟨incNth a.histogram.bin (findBin v bs)⟩,
        dadd a.total v,
        if dlt v a.min || disnan a.min then v else a.min,
        if dgt v a.max || disnan a.max then v else a.max⟩ hlen2
      refine ⟨hih.1, ?_⟩
      rw [hih.2]
      simp only [incNth_sum hbin, List.length_cons]
      omega
    · rw [runList, accumulate_neg h, acceptedVals_cons_neg t h]
      exact ih a ha

theorem runList_min_general (bs : List D) (hlen : bs.length = HISTOGRAM_BINS)
    (vs : List D) : ∀ (a : Accumulator), a.min ≠ D.nan →
    isMinOf ((runList bs a vs).min) (a.min :: acceptedVals bs vs) := by
  induction vs with
  | nil =>
    intro a ha
    constructor
    · simp [runList, acceptedVals]
    · intro u hu
      simp [acceptedVals] at hu
      subst hu
      simp [runList, dlt_irrefl]
  | cons v t ih =>
    intro a ha
    by_cases h : findBin v bs < HISTOGRAM_BINS
    · have hvnan : v ≠ D.nan := by
        intro hv
        subst hv
        rw [findBin_eq_length_nan, hlen] at h
        omega
      have hstep := @accumulate_pos bs a v h
      have hA1min : (Accumulator.accumulate bs a v).1.min
          = (if dlt v a.min then v else a.min) := by
        rw [hstep]
        simp [disnan_eq_false ha]
      rw [runList, acceptedVals_cons_pos t h]
      by_cases hlt : dlt v a.min = true
      · have hmin : (Accumulator.accumulate bs a v).1.min = v := by
          rw [hA1min, hlt]
          simp
        have ihh := ih (Accumulator.accumulate bs a v).1 (by rw [hmin]; exact hvnan)
        rw [hmin] at ihh
        obtain ⟨hmem, hbd⟩ := ihh
        constructor
        · rcases List.mem_cons.mp hmem with hr | hr
          · exact List.mem_cons_of_mem _ (by rw [hr]; exact List.mem_cons_self _ _)
          · exact List.mem_cons_of_mem _ (List.mem_cons_of_mem _ hr)
        · intro u hu
          rcases List.mem_cons.mp hu with hr | hr
          · subst hr
            by_contra hc
            rw [Bool.not_eq_false] at hc
            have hvr : dlt v ((runList bs (Accumulator.accumulate bs a v).1 t).min) = true :=
              dlt_trans hlt hc
            have := hbd v (List.mem_cons_self _ _)
            rw [this] at hvr
            exact Bool.false_ne_true hvr
          · exact hbd u hr
      · have hmin : (Accumulator.accumulate bs a v).1.min = a.min := by
          rw [hA1min]
          simp [hlt]
        have ihh := ih (Accumulator.accumulate bs a v).1 (by rw [hmin]; exact ha)
        rw [hmin] at ihh
        obtain ⟨hmem, hbd⟩ := ihh
        have hltf : dlt v a.min = false := by
          simpa using hlt
        constructor
        · rcases List.mem_cons.mp hmem with hr | hr
          · exact by rw [hr]; exact List.mem_cons_self _ _
          · exact List.mem_cons_of_mem _ (List.mem_cons_of_mem _ hr)
        · intro u hu
          rcases List.mem_cons.mp hu with hr | hr
          · subst hr
            exact hbd a.min (List.mem_cons_self _ _)
          · rcases List.mem_cons.mp hr with hr2 | hr2
            · subst hr2
              by_contra hc
              rw [Bool.not_eq_false] at hc
              have ham := hbd a.min (List.mem_cons_self _ _)
              rcases dlt_false_cases hvnan ha hltf with heq | hgt
              · rw [← heq] at ham
                rw [hc] at ham
                simp at ham
              · have hx := dlt_trans hgt hc
                rw [ham] at hx
                simp at hx
            · exact hbd u (List.mem_cons_of_mem _ hr2)
    · rw [runList, accumulate_neg h, acceptedVals_cons_neg t h]
      exact ih a ha

theorem runList_max_general (bs : List D) (hlen : bs.length = HISTOGRAM_BINS)
    (vs : List D) : ∀ (a : Accumulator), a.max ≠ D.nan →
    isMaxOf ((runList bs a vs).max) (a.max :: acceptedVals bs vs) := by
  induction vs with
  | nil =>
    intro a ha
    constructor
    · simp [runList, acceptedVals]
    · intro u hu
      simp [acceptedVals] at hu
      subst hu
      simp [runList, dlt_irrefl]
  | cons v t ih =>
    intro a ha
    by_cases h : findBin v bs < HISTOGRAM_BINS
    · have hvnan : v ≠ D.nan := by
        intro hv
        subst hv
        rw [findBin_eq_length_nan, hlen] at h
        omega
      have hstep := @accumulate_pos bs a v h
      have hA1max : (Accumulator.accumulate bs a v).1.max
          = (if dlt a.max v then v else a.max) := by
        rw [hstep]
        simp [dgt, disnan_eq_false ha]
      rw [runList, acceptedVals_cons_pos t h]
      by_cases hlt : dlt a.max v = true
      · have hmax : (Accumulator.accumulate bs a v).1.max = v := by
          rw [hA1max, hlt]
          simp
        have ihh := ih (Accumulator.accumulate bs a v).1 (by rw [hmax]; exact hvnan)
        rw [hmax] at ihh
        obtain ⟨hmem, hbd⟩ := ihh
        constructor
        · rcases List.mem_cons.mp hmem with hr | hr
          · exact List.mem_cons_of_mem _ (by rw [hr]; exact List.mem_cons_self _ _)
          · exact List.mem_cons_of_mem _ (List.mem_cons_of_mem _ hr)
        · intro u hu
          rcases List.mem_cons.mp hu with hr | hr
          · subst hr
            by_contra hc
            rw [Bool.not_eq_false] at hc
            have hvr : dlt ((runList bs (Accumulator.accumulate bs a v).1 t).max) v = true :=
              dlt_trans hc hlt
            have := hbd v (List.mem_cons_self _ _)
            rw [this] at hvr
            exact Bool.false_ne_true hvr
          · exact hbd u hr
      · have hmax : (Accumulator.accumulate bs a v).1.max = a.max := by
          rw [hA1max]
          simp [hlt]
        have ihh := ih (Accumulator.accumulate bs a v).1 (by rw [hmax]; exact ha)
        rw [hmax] at ihh
        obtain ⟨hmem, hbd⟩ := ihh
        have hltf : dlt a.max v = false := by
          simpa using hlt
        constructor
        · rcases List.mem_cons.mp hmem with hr | hr
          · exact by rw [hr]; exact List.mem_cons_self _ _
          · exact List.mem_cons_of_mem _ (List.mem_cons_of_mem _ hr)
        · intro u hu
          rcases List.mem_cons.mp hu with hr | hr
          · subst hr
            exact hbd a.max (List.mem_cons_self _ _)
          · rcases List.mem_cons.mp hr with hr2 | hr2
            · subst hr2
              by_contra hc
              rw [Bool.not_eq_false] at hc
              have ham := hbd a.max (List.mem_cons_self _ _)
              rcases dlt_false_cases ha hvnan hltf with heq | hgt
              · rw [heq] at ham
                rw [hc] at ham
                simp at ham
              · have hx := dlt_trans hc hgt
                rw [ham] at hx
                simp at hx
            · exact hbd u (List.mem_cons_of_mem _ hr2)
    · rw [runList, accumulate_neg h, acceptedVals_cons_neg t h]
      exact ih a ha

theorem runList_min_from_nan (bs : List D) (hlen : bs.length = HISTOGRAM_BINS)
    (vs : List D) : ∀ (a : Accumulator), a.min = D.nan →
    acceptedVals bs vs ≠ [] →
    isMinOf ((runList bs a vs).min) (acceptedVals bs vs) := by
  induction vs with
  | nil =>
    intro a _ hne
    simp [acceptedVals] at hne
  | cons v t ih =>
    intro a ha hne
    by_cases h : findBin v bs < HISTOGRAM_BINS
    · have hvnan : v ≠ D.nan := by
        intro hv
        subst hv
        rw [findBin_eq_length_nan, hlen] at h
        omega
      have hmin : (Accumulator.accumulate bs a v).1.min = v := by
        rw [accumulate_pos h]
        simp [ha, disnan]
      rw [runList, acceptedVals_cons_pos t h]
      have := runList_min_general bs hlen t (Accumulator.accumulate bs a v).1
        (by rw [hmin]; exact hvnan)
      rw [hmin] at this
      exact this
    · rw [runList, accumulate_neg h, acceptedVals_cons_neg t h]
      rw [acceptedVals_cons_neg t h] at hne
      exact ih a ha hne

theorem runList_max_from_nan (bs : List D) (hlen : bs.length = HISTOGRAM_BINS)
    (vs : List D) : ∀ (a : Accumulator), a.max = D.nan →
    acceptedVals bs vs ≠ [] →
    isMaxOf ((runList bs a vs).max) (acceptedVals bs vs) := by
  induction vs with
  | nil =>
    intro a _ hne
    simp [acceptedVals] at hne
  | cons v t ih =>
    intro a ha hne
    by_cases h : findBin v bs < HISTOGRAM_BINS
    · have hvnan : v ≠ D.nan := by
        intro hv
        subst hv
        rw [findBin_eq_length_nan, hlen] at h
        omega
      have hmax : (Accumulator.accumulate bs a v).1.max = v := by
        rw [accumulate_pos h]
        simp [ha, dgt, dlt_nan_left, disnan]
      rw [runList, acceptedVals_cons_pos t h]
      have := runList_max_general bs hlen t (Accumulator.accumulate bs a v).1
        (by rw [hmax]; exact hvnan)
      rw [hmax] at this
      exact this
    · rw [runList, accumulate_neg h, acceptedVals_cons_neg t h]
      rw [acceptedVals_cons_neg t h] at hne
      exact ih a ha hne

theorem quantityTable_length {bs : List D} (h : isQuantityTable bs) :
    bs.length = HISTOGRAM_BINS := by
  rcases h with rfl | rfl | rfl | rfl | rfl | rfl <;> rfl

theorem quantityTable_inf_mem {bs : List D} (h : isQuantityTable bs) : D.inf ∈ bs := by
  rcases h with rfl | rfl | rfl | rfl | rfl | rfl <;> decide

theorem quantityTable_findBin_ninf {bs : List D} (h : isQuantityTable bs) :
    findBin D.ninf bs = 0 := by
  rcases h with rfl | rfl | rfl | rfl | rfl | rfl <;> decide

/-- C1: for every value `v`, `Accumulator::accumulate` selects the first
bucket index `i` (scanning the boundary table in ascending order) with
`v < boundary[i]` and succeeds; no bucket matches exactly when `v` is NaN or
+infinity (the last boundary being +infinity), in which case the call
returns false and none of total, min, max, or the histogram are modified. -/
theorem claim_C1 (bs : List D) (hbs : isQuantityTable bs) (a : Accumulator) (v : D) :
    ((Accumulator.accumulate bs a v).2 = true ↔ ¬(v = D.nan ∨ v = D.inf)) ∧
    ((Accumulator.accumulate bs a v).2 = true →
      findBin v bs < HISTOGRAM_BINS ∧
      dlt v (bs.getD (findBin v bs) D.nan) = true ∧
      (∀ j, j < findBin v bs → dlt v (bs.getD j D.nan) = false) ∧
      (Accumulator.accumulate bs a v).1.histogram.bin
        = incNth a.histogram.bin (findBin v bs)) ∧
    ((Accumulator.accumulate bs a v).2 = false → (Accumulator.accumulate bs a v).1 = a) := by
  have hlen := quantityTable_length hbs
  have hinf := quantityTable_inf_mem hbs
  refine ⟨?_, ?_, ?_⟩
  · rw [accumulate_ok]
    constructor
    · intro h hv
      rcases hv with rfl | rfl
      · rw [findBin_eq_length_nan, hlen] at h
        omega
      · rw [findBin_eq_length_inf, hlen] at h
        omega
    · intro h
      have h1 : v ≠ D.nan := fun hv => h (Or.inl hv)
      have h2 : v ≠ D.inf := fun hv => h (Or.inr hv)
      have h3 := findBin_lt_of_inf_mem hinf h1 h2
      rw [hlen] at h3
      exact h3
  · intro h
    rw [accumulate_ok] at h
    refine ⟨h, ?_, ?_, ?_⟩
    · exact findBin_getD (by rw [hlen]; exact h)
    · intro j hj
      exact findBin_before hj
    · rw [accumulate_pos h]
  · intro h
    have h2 : ¬ findBin v bs < HISTOGRAM_BINS := by
      intro hc
      have h3 := (accumulate_ok bs a v).mpr hc
      rw [h3] at h
      simp at h
    rw [accumulate_neg h2]

/-- Witness for C1 at the voltage table and the in-range value 230. -/
theorem claim_C1_wit :
    (Accumulator.accumulate binBoundaryV Accumulator.fresh (D.fin 230)).2 = true ↔
      ¬(D.fin 230 = D.nan ∨ D.fin 230 = D.inf) :=
  (claim_C1 binBoundaryV (Or.inl rfl) Accumulator.fresh (D.fin 230)).1

/-- C2: starting from the reset state, each successful `accumulate` increments
exactly one histogram bucket, success of a call depends only on bucket
selection, and the sum of the twelve counters equals the number of successful
calls (the accepted values of the sequence). -/
theorem claim_C2 (bs vs : List D) :
    (runList bs Accumulator.fresh vs).histogram.bin.sum = (acceptedVals bs vs).length ∧
    (∀ (a : Accumulator) (v : D),
      (Accumulator.accumulate bs a v).2 = true ↔ findBin v bs < HISTOGRAM_BINS) ∧
    (∀ (a : Accumulator) (v : D), (Accumulator.accumulate bs a v).2 = true →
      (Accumulator.accumulate bs a v).1.histogram.bin
        = incNth a.histogram.bin (findBin v bs) ∧ findBin v bs < HISTOGRAM_BINS) := by
  refine ⟨?_, accumulate_ok bs, ?_⟩
  · have h := runList_histogram bs vs Accumulator.fresh (by rfl)
    rw [h.2]
    simp [Accumulator.fresh, Histogram.fresh, HISTOGRAM_BINS]
  · intro a v h
    rw [accumulate_ok] at h
    exact ⟨by rw [accumulate_pos h], h⟩

/-- Witness for C2: a run with two accepted values and one rejected NaN. -/
theorem claim_C2_wit :
    (runList binBoundaryV Accumulator.fresh
      [D.fin 230, D.nan, D.fin 231]).histogram.bin.sum
      = (acceptedVals binBoundaryV [D.fin 230, D.nan, D.fin 231]).length :=
  (claim_C2 binBoundaryV [D.fin 230, D.nan, D.fin 231]).1

/-- C4: the rounding function of `summarise` computes
`floor(10 ^ p * n) / 10 ^ p`, truncation toward negative infinity at the
p-th decimal place (not round-to-nearest); in particular
`round(2.449, 1) = 2.4` and `round(-1.05, 1) = -1.1`. -/
theorem claim_C4 :
    (∀ (q : ℚ) (p : Nat),
      dround (D.fin q) p
        = D.fin (((Int.floor ((10 : ℚ) ^ p * q) : ℤ) : ℚ) / (10 : ℚ) ^ p)) ∧
    dround (D.fin (mkRat 2449 1000)) 1 = D.fin (mkRat 24 10) ∧
    dround (D.fin (mkRat (-105) 100)) 1 = D.fin (mkRat (-11) 10) ∧
    mkRat 2449 1000 = (2449 : ℚ) / 1000 ∧
    mkRat 24 10 = (24 : ℚ) / 10 ∧
    mkRat (-105) 100 = -((105 : ℚ) / 100) ∧
    mkRat (-11) 10 = -((11 : ℚ) / 10) := by
  refine ⟨?_, by decide, by decide, ?_, ?_, ?_, ?_⟩
  · intro q p
    have h10 : pow10 p ≠ 0 := by
      rw [pow10_eq]
      positivity
    simp only [dround]
    rw [dmul_fin, dfloor_fin, ddiv_fin _ _ h10, pow10_eq]
  · rw [Rat.mkRat_eq_div]
    norm_num
  · rw [Rat.mkRat_eq_div]
    norm_num
  · rw [Rat.mkRat_eq_div]
    norm_num
  · rw [Rat.mkRat_eq_div]
    norm_num

/-- C5: `summarise` fails whenever the count is zero, and `Report::reset()`
after any sequence of accumulations restores the count to zero, so an
immediately following `summarise` fails. -/
theorem claim_C5 :
    (∀ (a : Accumulator) (dp : Nat) (s : Summary),
      (Accumulator.summarise a dp s 0).2 = false) ∧
    (∀ (r : Report) (now : Nat), (Report.reset r now).count = 0) ∧
    (∀ (r : Report) (now : Nat) (ss : SampleSummary),
      (Report.summarise (Report.reset r now) ss).2 = false) := by
  refine ⟨?_, ?_, ?_⟩
  · intro a dp s
    simp [Accumulator.summarise]
  · intro r now
    rfl
  · intro r now ss
    rfl

/-- C9: calling `summarise` with a zero count leaves the out-parameter
completely untouched (the histogram `memcpy` sits after the `count == 0`
test in a short-circuiting `||`), whereas any nonzero count copies the live
histogram into the summary. -/
theorem claim_C9 (a : Accumulator) (dp : Nat) (s : Summary) :
    (Accumulator.summarise a dp s 0).1 = s ∧
    (Accumulator.summarise a dp s 0).2 = false ∧
    ∀ c : Nat, (Accumulator.summarise a dp s (c + 1)).1.histogram = a.histogram := by
  refine ⟨rfl, rfl, ?_⟩
  intro c
  simp [Accumulator.summarise]

/-- Witness for C9 at a concrete accumulator and summary. -/
theorem claim_C9_wit :
    (Accumulator.summarise Accumulator.fresh 1 Summary.fresh 0).1 = Summary.fresh :=
  (claim_C9 Accumulator.fresh 1 Summary.fresh).1

/-- C3: after a non-empty sequence of accepted values since reset, `min` and
`max` equal the true minimum and maximum of the accepted values (membership
plus lower/upper-bound, so the NaN initial state is never visible), and as
further values are processed `min` is non-increasing and `max` is
non-decreasing. -/
theorem claim_C3 (bs vs : List D) (hlen : bs.length = HISTOGRAM_BINS)
    (hne : acceptedVals bs vs ≠ []) :
    isMinOf ((runList bs Accumulator.fresh vs).min) (acceptedVals bs vs) ∧
    isMaxOf ((runList bs Accumulator.fresh vs).max) (acceptedVals bs vs) ∧
    ∀ ws : List D,
      ((runList bs Accumulator.fresh (vs ++ ws)).min
          = (runList bs Accumulator.fresh vs).min ∨
        dlt ((runList bs Accumulator.fresh (vs ++ ws)).min)
          ((runList bs Accumulator.fresh vs).min) = true) ∧
      ((runList bs Accumulator.fresh (vs ++ ws)).max
          = (runList bs Accumulator.fresh vs).max ∨
        dlt ((runList bs Accumulator.fresh vs).max)
          ((runList bs Accumulator.fresh (vs ++ ws)).max) = true) := by
  have hmin := runList_min_from_nan bs hlen vs Accumulator.fresh rfl hne
  have hmax := runList_max_from_nan bs hlen vs Accumulator.fresh rfl hne
  refine ⟨hmin, hmax, ?_⟩
  intro ws
  rw [runList_append]
  set a1 := runList bs Accumulator.fresh vs with ha1
  have ha1min_ne : a1.min ≠ D.nan := accepted_ne_nan hlen hmin.1
  have ha1max_ne : a1.max ≠ D.nan := accepted_ne_nan hlen hmax.1
  have h1 := runList_min_general bs hlen ws a1 ha1min_ne
  have h2 := runList_max_general bs hlen ws a1 ha1max_ne
  constructor
  · have hb := h1.2 a1.min (List.mem_cons_self _ _)
    have ha2_ne : (runList bs a1 ws).min ≠ D.nan := by
      rcases List.mem_cons.mp h1.1 with hr | hr
      · rw [hr]
        exact ha1min_ne
      · exact accepted_ne_nan hlen hr
    rcases dlt_false_cases ha1min_ne ha2_ne hb with heq | hgt
    · exact Or.inl heq.symm
    · exact Or.inr hgt
  · have hb := h2.2 a1.max (List.mem_cons_self _ _)
    have ha2_ne : (runList bs a1 ws).max ≠ D.nan := by
      rcases List.mem_cons.mp h2.1 with hr | hr
      · rw [hr]
        exact ha1max_ne
      · exact accepted_ne_nan hlen hr
    rcases dlt_false_cases ha2_ne ha1max_ne hb with heq | hgt
    · exact Or.inl heq
    · exact Or.inr hgt

/-- Witness for C3: the run 230, 231, 229 on the voltage table. -/
theorem claim_C3_wit :
    isMinOf ((runList binBoundaryV Accumulator.fresh
        [D.fin 230, D.fin 231, D.fin 229]).min)
      (acceptedVals binBoundaryV [D.fin 230, D.fin 231, D.fin 229]) ∧
    isMaxOf ((runList binBoundaryV Accumulator.fresh
        [D.fin 230, D.fin 231, D.fin 229]).max)
      (acceptedVals binBoundaryV [D.fin 230, D.fin 231, D.fin 229]) :=
  ⟨(claim_C3 binBoundaryV [D.fin 230, D.fin 231, D.fin 229] (by decide) (by decide)).1,
   (claim_C3 binBoundaryV [D.fin 230, D.fin 231, D.fin 229] (by decide) (by decide)).2.1⟩

/-- C6: `PhaseAccumulator::accumulate` accumulates all five quantities
unconditionally and independently, returns true exactly when all five
sub-accumulations succeed, and a partial failure (here: a NaN power factor)
leaves the successful sub-accumulators advanced with no rollback. -/
theorem claim_C6 (pa : PhaseAccumulator) (ph : Phase) :
    ((pa.accumulate ph).1.vrms = (pa.vrms.accumulate binBoundaryV ph.vrms).1 ∧
     (pa.accumulate ph).1.irms = (pa.irms.accumulate binBoundaryI ph.irms).1 ∧
     (pa.accumulate ph).1.powerActive
        = (pa.powerActive.accumulate binBoundaryP ph.powerActive).1 ∧
     (pa.accumulate ph).1.powerReactive
        = (pa.powerReactive.accumulate binBoundaryQ ph.powerReactive).1 ∧
     (pa.accumulate ph).1.powerFactor
        = (pa.powerFactor.accumulate binBoundaryPF ph.powerFactor).1) ∧
    ((pa.accumulate ph).2 = true ↔
      ((pa.vrms.accumulate binBoundaryV ph.vrms).2 = true ∧
       (pa.irms.accumulate binBoundaryI ph.irms).2 = true ∧
       (pa.powerActive.accumulate binBoundaryP ph.powerActive).2 = true ∧
       (pa.powerReactive.accumulate binBoundaryQ ph.powerReactive).2 = true ∧
       (pa.powerFactor.accumulate binBoundaryPF ph.powerFactor).2 = true)) ∧
    ((PhaseAccumulator.fresh.accumulate phaseWithNanPF).2 = false ∧
     (PhaseAccumulator.fresh.accumulate phaseWithNanPF).1.vrms.histogram.bin.sum = 1 ∧
     (PhaseAccumulator.fresh.accumulate phaseWithNanPF).1.irms.histogram.bin.sum = 1 ∧
     (PhaseAccumulator.fresh.accumulate phaseWithNanPF).1.powerActive.histogram.bin.sum = 1 ∧
     (PhaseAccumulator.fresh.accumulate phaseWithNanPF).1.powerReactive.histogram.bin.sum = 1 ∧
     (PhaseAccumulator.fresh.accumulate phaseWithNanPF).1.powerFactor = Accumulator.fresh) := by
  refine ⟨⟨rfl, rfl, rfl, rfl, rfl⟩, ?_, by decide⟩
  simp [PhaseAccumulator.accumulate, Bool.and_eq_true, and_assoc]

/-- Witness for C6 at the fresh accumulator and the NaN-power-factor phase. -/
theorem claim_C6_wit :
    (PhaseAccumulator.fresh.accumulate phaseWithNanPF).1.vrms
      = (PhaseAccumulator.fresh.vrms.accumulate binBoundaryV phaseWithNanPF.vrms).1 :=
  (claim_C6 PhaseAccumulator.fresh phaseWithNanPF).1.1

/-- C7: `SampleAccumulator::accumulate` increments `count` and refreshes
`tsEnd` only when the three phase accumulations and the frequency
accumulation all succeeded; on any failure `count` and `tsEnd` are unchanged
(the call returns false), while the sub-accumulators keep whatever partial
updates they received. -/
theorem claim_C7 (sa : SampleAccumulator) (s : Sample) (now : Nat) :
    ((sa.accumulate s now).2 = true ↔
      ((sa.p1.accumulate s.p1).2 = true ∧ (sa.p2.accumulate s.p2).2 = true ∧
       (sa.p3.accumulate s.p3).2 = true ∧
       (sa.frequency.accumulate binBoundaryF s.frequency).2 = true)) ∧
    ((sa.accumulate s now).2 = true →
      (sa.accumulate s now).1.count = sa.count + 1 ∧
      (sa.accumulate s now).1.tsEnd = now) ∧
    ((sa.accumulate s now).2 = false →
      (sa.accumulate s now).1.count = sa.count ∧
      (sa.accumulate s now).1.tsEnd = sa.tsEnd) ∧
    ((sa.accumulate s now).1.p1 = (sa.p1.accumulate s.p1).1 ∧
     (sa.accumulate s now).1.p2 = (sa.p2.accumulate s.p2).1 ∧
     (sa.accumulate s now).1.p3 = (sa.p3.accumulate s.p3).1 ∧
     (sa.accumulate s now).1.frequency
        = (sa.frequency.accumulate binBoundaryF s.frequency).1) := by
  by_cases h : ((sa.p1.accumulate s.p1).2 && (sa.p2.accumulate s.p2).2 &&
      (sa.p3.accumulate s.p3).2 && (sa.frequency.accumulate binBoundaryF s.frequency).2) = true
  · simp [SampleAccumulator.accumulate, h, Bool.and_eq_true, and_assoc]
    rw [Bool.and_eq_true, Bool.and_eq_true, Bool.and_eq_true] at h
    exact ⟨h.1.1.1, h.1.1.2, h.1.2, h.2⟩
  · simp [SampleAccumulator.accumulate, h, Bool.and_eq_true, and_assoc]
    intro h1 h2 h3
    by_contra h4
    rw [Bool.not_eq_false] at h4
    exact h (by rw [h1, h2, h3, h4]; rfl)

/-- Witness for C7: a fully valid sample increments the count and stamps
`tsEnd`. -/
theorem claim_C7_wit :
    ((SampleAccumulator.fresh 0).accumulate (demoSample 230) 5).1.count
        = (SampleAccumulator.fresh 0).count + 1 ∧
    ((SampleAccumulator.fresh 0).accumulate (demoSample 230) 5).1.tsEnd = 5 :=
  (claim_C7 (SampleAccumulator.fresh 0) (demoSample 230) 5).2.1 (by decide)

/-- Counterexample for C8: the value 231.0 under the 230 V profile selects
bucket index 6, the bucket [230, 235), not bucket index 5, the bucket
[225, 230) the claim assigns it; accordingly the histogram after the run
230, 231, 229 is 1 at index 5 and 2 at index 6, not 2 and 1 as claimed. -/
theorem claim_C8_cex :
    findBin (D.fin 231) binBoundaryV = 6 ∧
    ¬ findBin (D.fin 231) binBoundaryV = 5 ∧
    (runList binBoundaryV Accumulator.fresh
        [D.fin 230, D.fin 231, D.fin 229]).histogram.bin
      = [0, 0, 0, 0, 0, 1, 2, 0, 0, 0, 0, 0] ∧
    ¬ (runList binBoundaryV Accumulator.fresh
        [D.fin 230, D.fin 231, D.fin 229]).histogram.bin
      = [0, 0, 0, 0, 0, 2, 1, 0, 0, 0, 0, 0] := by decide

/-- C8 (amended): feeding three samples with phase-1 voltages 230.0, 231.0,
229.0 under the 230 V profile lands them in the buckets [230, 235),
[230, 235) and [225, 230) respectively (indices 6, 6, 5), and after
summarising at count 3 the voltage summary has avg 230.0, min 229.0,
max 231.0 and a histogram summing to 3. -/
theorem claim_C8 :
    (let s0 := SampleAccumulator.fresh 0
     let r1 := s0.accumulate (demoSample 230) 1
     let r2 := r1.1.accumulate (demoSample 231) 2
     let r3 := r2.1.accumulate (demoSample 229) 3
     let res := r3.1.summarise SampleSummary.fresh
     r1.2 = true ∧ r2.2 = true ∧ r3.2 = true ∧ r3.1.count = 3 ∧
     res.2 = true ∧
     res.1.p1.vrms.avg = D.fin 230 ∧
     res.1.p1.vrms.min = D.fin 229 ∧
     res.1.p1.vrms.max = D.fin 231 ∧
     res.1.p1.vrms.histogram.bin = [0, 0, 0, 0, 0, 1, 2, 0, 0, 0, 0, 0] ∧
     res.1.p1.vrms.histogram.bin.sum = 3 ∧
     findBin (D.fin 230) binBoundaryV = 6 ∧
     findBin (D.fin 231) binBoundaryV = 6 ∧
     findBin (D.fin 229) binBoundaryV = 5) := by decide

/-- C10: `accumulate(-infinity)` succeeds for every quantity table: -infinity
is below the first boundary, so it lands in bucket 0, is added to the total
(which is -infinity from then on) and replaces `min`; only NaN and +infinity
are ever rejected by bucket selection. -/
theorem claim_C10 (bs : List D) (hbs : isQuantityTable bs) (a : Accumulator) :
    (Accumulator.accumulate bs a D.ninf).2 = true ∧
    findBin D.ninf bs = 0 ∧
    (Accumulator.accumulate bs a D.ninf).1.histogram.bin = incNth a.histogram.bin 0 ∧
    (Accumulator.accumulate bs a D.ninf).1.min = D.ninf ∧
    (a.total ≠ D.nan → a.total ≠ D.inf →
      (Accumulator.accumulate bs a D.ninf).1.total = D.ninf) ∧
    (∀ (a2 : Accumulator) (v : D), a2.total = D.ninf →
      (Accumulator.accumulate bs a2 v).1.total = D.ninf) ∧
    (∀ v : D, (Accumulator.accumulate bs a v).2 = false ↔ (v = D.nan ∨ v = D.inf)) := by
  have hlen := quantityTable_length hbs
  have hinf := quantityTable_inf_mem hbs
  have h0 : findBin D.ninf bs = 0 := quantityTable_findBin_ninf hbs
  have hlt : findBin D.ninf bs < HISTOGRAM_BINS := by
    rw [h0]
    norm_num [HISTOGRAM_BINS]
  refine ⟨(accumulate_ok bs a D.ninf).mpr hlt, h0, ?_, ?_, ?_, ?_, ?_⟩
  · rw [accumulate_pos hlt]
    simp [h0]
  · rw [accumulate_pos hlt]
    have hm : ∀ m : D, (if dlt D.ninf m || disnan m then D.ninf else m) = D.ninf := by
      intro m
      cases m <;> simp [dlt, disnan]
    simpa using hm a.min
  · intro h1 h2
    rw [accumulate_pos hlt]
    cases hat : a.total with
    | nan => exact absurd hat h1
    | inf => exact absurd hat h2
    | ninf => simp [dadd]
    | fin q => simp [dadd]
  · intro a2 v h2
    by_cases hv : findBin v bs < HISTOGRAM_BINS
    · have hvnan : v ≠ D.nan := by
        intro hx
        subst hx
        rw [findBin_eq_length_nan, hlen] at hv
        omega
      have hvinf : v ≠ D.inf := by
        intro hx
        subst hx
        rw [findBin_eq_length_inf, hlen] at hv
        omega
      rw [accumulate_pos hv]
      simp only [h2]
      cases v with
      | nan => exact absurd rfl hvnan
      | inf => exact absurd rfl hvinf
      | ninf => rfl
      | fin q => rfl
    · rw [accumulate_neg hv]
      exact h2
  · intro v
    constructor
    · intro h
      by_contra hv
      push_neg at hv
      have h3 := findBin_lt_of_inf_mem hinf hv.1 hv.2
      rw [hlen] at h3
      have h4 := (accumulate_ok bs a v).mpr h3
      rw [h4] at h
      simp at h
    · intro hv
      rcases hv with rfl | rfl
      · have hn : ¬ findBin D.nan bs < HISTOGRAM_BINS := by
          rw [findBin_eq_length_nan, hlen]
          omega
        rw [accumulate_neg hn]
      · have hn : ¬ findBin D.inf bs < HISTOGRAM_BINS := by
          rw [findBin_eq_length_inf, hlen]
          omega
        rw [accumulate_neg hn]

/-- Witness for C10 at the frequency table and a fresh accumulator. -/
theorem claim_C10_wit :
    (Accumulator.accumulate binBoundaryF Accumulator.fresh D.ninf).2 = true ∧
    (Accumulator.accumulate binBoundaryF Accumulator.fresh D.ninf).1.min = D.ninf :=
  ⟨(claim_C10 binBoundaryF
      (Or.inr (Or.inr (Or.inr (Or.inr (Or.inr rfl))))) Accumulator.fresh).1,
   (claim_C10 binBoundaryF
      (Or.inr (Or.inr (Or.inr (Or.inr (Or.inr rfl))))) Accumulator.fresh).2.2.2.1⟩
